import Mathlib

/-!
Verification of `examples/go/real.go`.

The Go file defines two functions on the machine type `int` and a driver:

* `Fibonacci`, a doubly recursive computation,
* `FibonacciIterative`, an accumulator loop,
* `main`, which prints both results for `n = 10`.

Go's `int` is modelled as the mathematical integers restricted to the signed
64-bit range; every arithmetic operation of the source (`n-1`, `n-2`, `a+b`,
`i++`) is followed by an explicit reduction into that range, which is what Go
prescribes for signed overflow.  The width is the one `int` has on 64-bit
platforms.

`Fibonacci` is a total function: its recursion is well-founded.  The loop of
`FibonacciIterative` is run with fuel, one unit per test of the loop condition;
the function returns `v` when some amount of fuel yields `some v`, and then
every larger amount yields the same (`FibonacciIterative_fuel_mono`).
-/

namespace FibGo

/-! ## Machine integers -/

/-- Smallest value of a 64-bit Go `int`. -/
def minInt : Int := -9223372036854775808

/-- Largest value of a 64-bit Go `int`. -/
def maxInt : Int := 9223372036854775807

/-- Values that a Go `int` can hold. -/
def isInt (x : Int) : Prop := minInt ≤ x ∧ x ≤ maxInt

instance (x : Int) : Decidable (isInt x) := by
  unfold isInt; infer_instance

/-- Reduction of an exact integer into the signed 64-bit range
    (two's complement wrap-around). -/
def wrapInt (x : Int) : Int :=
  (x + 9223372036854775808) % 18446744073709551616 - 9223372036854775808

/-- Go `x + y` on `int`. -/
def intAdd (x y : Int) : Int := wrapInt (x + y)

/-- Go `x - y` on `int`. -/
def intSub (x y : Int) : Int := wrapInt (x - y)

/-! ## `Fibonacci` -/

/-- Source: `func Fibonacci(n int) int`.
    `if n <= 1 { return n }; return Fibonacci(n-1) + Fibonacci(n-2)`. -/
def Fibonacci (n : Int) : Int :=
  if n ≤ 1 then n
  else intAdd (Fibonacci (intSub n 1)) (Fibonacci (intSub n 2))
termination_by n.toNat
decreasing_by
  all_goals
    simp only [intSub, wrapInt]
    omega

/-! ## `FibonacciIterative` -/

/-- Variables live in the loop of `FibonacciIterative`. -/
structure LoopState where
  i : Int
  a : Int
  b : Int
deriving DecidableEq, Repr

/-- One pass of the loop: the body `a, b = b, a+b` followed by the
    post statement `i++`. -/
def loopBody (s : LoopState) : LoopState :=
  { i := intAdd s.i 1, a := s.b, b := intAdd s.a s.b }

/-- The loop `for ...; i <= n; i++ { a, b = b, a+b }` followed by `return b`.
    Each test of the loop condition consumes one unit of fuel; `none` means the
    fuel ran out before the condition became false. -/
def runLoop (n : Int) : Nat → LoopState → Option Int
  | 0, _ => none
  | fuel + 1, s => if s.i ≤ n then runLoop n fuel (loopBody s) else some s.b

/-- Source: `func FibonacciIterative(n int) int`.
    `if n <= 1 { return n }; a, b := 0, 1; for i := 2; i <= n; i++ {...}; return b`. -/
def FibonacciIterative (fuel : Nat) (n : Int) : Option Int :=
  if n ≤ 1 then some n
  else runLoop n fuel { i := 2, a := 0, b := 1 }

/-! ## The driver -/

/-- Decimal rendering of a Go `int` under the verb `%d`: an optional minus
    sign followed by the digits of the magnitude. -/
def formatInt (x : Int) : List Char :=
  if x < 0 then '-' :: Nat.toDigits 10 x.natAbs else Nat.toDigits 10 x.natAbs

/-- The part of `fmt.Sprintf` the driver relies on: ordinary characters are
    copied, each `%d` consumes the next operand and renders it in decimal, and
    a `%d` without an operand left renders as `%!d(MISSING)`. -/
def Sprintf : List Char → List Int → List Char
  | [], _ => []
  | '%' :: 'd' :: rest, x :: args => formatInt x ++ Sprintf rest args
  | '%' :: 'd' :: rest, [] => "%!d(MISSING)".toList ++ Sprintf rest []
  | c :: rest, args => c :: Sprintf rest args

/-- Source: `func main()`.  Standard output is modelled as the text written to
    it: `n := 10`, then one `fmt.Printf` with the result of `Fibonacci(n)`, then
    one with the result of `FibonacciIterative(n)`.  The result is `none` when
    the fuel does not let `FibonacciIterative` return. -/
def main (fuel : Nat) : Option String :=
  let n : Int := 10
  let out1 := Sprintf "Fibonacci(%d) = %d (recursive)\n".toList [n, Fibonacci n]
  match FibonacciIterative fuel n with
  | none => none
  | some v =>
    let out2 := Sprintf "Fibonacci(%d) = %d (iterative)\n".toList [n, v]
    some (String.mk (out1 ++ out2))

/-! ## The mathematical sequence -/

/-- The Fibonacci sequence as the glossary words it: seed values
    `f(0) = 0`, `f(1) = 1`, each further term the sum of the two preceding
    terms.  No machine arithmetic is involved. -/
def mathFib : Nat → Nat
  | 0 => 0
  | 1 => 1
  | n + 2 => mathFib n + mathFib (n + 1)

/-- The step `(a, b) -> (b, a+b)` on an accumulator pair, as the component
    design words the iterative contract (the sum is a Go `int` sum). -/
def pairStep (p : Int × Int) : Int × Int := (p.2, intAdd p.1 p.2)

/-! ## Facts about machine integers -/

theorem wrapInt_of_isInt {x : Int} (h : isInt x) : wrapInt x = x := by
  unfold isInt minInt maxInt at h
  unfold wrapInt
  omega

theorem isInt_wrapInt (x : Int) : isInt (wrapInt x) := by
  unfold isInt minInt maxInt wrapInt
  omega

theorem wrapInt_add_wrapInt (x y : Int) :
    wrapInt (wrapInt x + wrapInt y) = wrapInt (x + y) := by
  unfold wrapInt
  omega

theorem intSub_of_ge {n k : Int} (hk0 : 0 ≤ k) (hkn : k ≤ n) (hn : n ≤ maxInt) :
    intSub n k = n - k := by
  unfold maxInt at hn
  unfold intSub wrapInt
  omega

/-! ## The mathematical sequence: values and growth -/

theorem mathFib_eq_fib (n : Nat) : mathFib n = Nat.fib n := by
  induction n using Nat.strong_induction_on with
  | _ n ih =>
    match n with
    | 0 => rfl
    | 1 => rfl
    | k + 2 =>
      rw [mathFib, ih k (by omega), ih (k + 1) (by omega), Nat.fib_add_two]

theorem mathFib_mono {m n : Nat} (h : m ≤ n) : mathFib m ≤ mathFib n := by
  rw [mathFib_eq_fib, mathFib_eq_fib]
  exact Nat.fib_mono h

theorem mathFib_92 : mathFib 92 = 7540113804746346429 := by
  rw [mathFib_eq_fib]; norm_num [Nat.fib_add_two]

theorem mathFib_93 : mathFib 93 = 12200160415121876738 := by
  rw [mathFib_eq_fib]; norm_num [Nat.fib_add_two]

/-! ## Unfolding `Fibonacci` -/

theorem Fibonacci_of_le {n : Int} (h : n ≤ 1) : Fibonacci n = n := by
  rw [Fibonacci, if_pos h]

theorem Fibonacci_of_ge {n : Int} (h : 2 ≤ n) (hn : n ≤ maxInt) :
    Fibonacci n = intAdd (Fibonacci (n - 1)) (Fibonacci (n - 2)) := by
  rw [Fibonacci, if_neg (by omega), intSub_of_ge (by omega) (by omega) hn,
    intSub_of_ge (by omega) (by omega) hn]

/-- On every index a Go `int` can hold, the recursion returns the mathematical
    Fibonacci number reduced into the signed 64-bit range. -/
theorem Fibonacci_eq_wrap (k : Nat) (hk : (k : Int) ≤ maxInt) :
    Fibonacci (k : Int) = wrapInt (mathFib k) := by
  induction k using Nat.strong_induction_on with
  | _ k ih =>
    match k with
    | 0 => rw [Fibonacci_of_le (by decide)]; decide
    | 1 => rw [Fibonacci_of_le (by decide)]; decide
    | j + 2 =>
      have h1 : ((j + 2 : Nat) : Int) - 1 = ((j + 1 : Nat) : Int) := by push_cast; ring
      have h2 : ((j + 2 : Nat) : Int) - 2 = ((j : Nat) : Int) := by push_cast; ring
      have hj1 : ((j + 1 : Nat) : Int) ≤ maxInt := by push_cast at hk ⊢; omega
      have hj : ((j : Nat) : Int) ≤ maxInt := by push_cast at hk ⊢; omega
      rw [Fibonacci_of_ge (by push_cast; omega) hk, h1, h2, ih (j + 1) (by omega) hj1,
        ih j (by omega) hj, intAdd, wrapInt_add_wrapInt, mathFib]
      congr 1
      push_cast
      ring

/-! ## The loop of `FibonacciIterative` -/

theorem runLoop_step {n : Int} {s : LoopState} (h : s.i ≤ n) (fuel : Nat) :
    runLoop n (fuel + 1) s = runLoop n fuel (loopBody s) := by
  rw [runLoop, if_pos h]

theorem runLoop_exit {n : Int} {s : LoopState} (h : ¬ s.i ≤ n) (fuel : Nat) :
    runLoop n (fuel + 1) s = some s.b := by
  rw [runLoop, if_neg h]

/-- When the bound is below `maxInt`, a loop entered with counter `i ≤ n + 1`
    makes exactly `n + 1 - i` passes and returns the `b` reached then, provided
    the fuel covers the `n + 2 - i` tests of the condition. -/
theorem runLoop_eq_iterate (n : Int) (hn : n < maxInt) (k : Nat) :
    ∀ (s : LoopState) (fuel : Nat), s.i + k = n + 1 → minInt ≤ s.i → k < fuel →
      runLoop n fuel s = some (loopBody^[k] s).b := by
  induction k with
  | zero =>
    intro s fuel hs _ hf
    obtain ⟨f, rfl⟩ : ∃ f, fuel = f + 1 := ⟨fuel - 1, by omega⟩
    rw [runLoop_exit (by omega)]
    rfl
  | succ k ih =>
    intro s fuel hs hlo hf
    obtain ⟨f, rfl⟩ : ∃ f, fuel = f + 1 := ⟨fuel - 1, by omega⟩
    have hi : (loopBody s).i = s.i + 1 := by
      show intAdd s.i 1 = s.i + 1
      unfold maxInt at hn
      unfold minInt at hlo
      unfold intAdd wrapInt
      push_cast at hs
      omega
    rw [runLoop_step (by push_cast at hs; omega), Function.iterate_succ_apply]
    exact ih (loopBody s) f (by rw [hi]; push_cast at hs; omega) (by rw [hi]; omega) (by omega)

/-- The accumulator pair after `k` passes, started from `(0, 1)` with counter
    `2`, holds two consecutive Fibonacci numbers reduced into the machine range;
    the counter holds `k + 2` reduced likewise. -/
theorem loopBody_iterate (k : Nat) :
    loopBody^[k] { i := 2, a := 0, b := 1 } =
      { i := wrapInt (k + 2), a := wrapInt (mathFib k), b := wrapInt (mathFib (k + 1)) } := by
  induction k with
  | zero => decide
  | succ k ih =>
    rw [Function.iterate_succ_apply', ih]
    simp only [loopBody, intAdd, LoopState.mk.injEq]
    refine ⟨?_, trivial, ?_⟩
    · unfold wrapInt; push_cast; omega
    · rw [wrapInt_add_wrapInt, mathFib]; push_cast; rfl

/-- The accumulator components of the loop state evolve by `pairStep`. -/
theorem loopBody_iterate_pair (k : Nat) (s : LoopState) :
    ((loopBody^[k] s).a, (loopBody^[k] s).b) = pairStep^[k] (s.a, s.b) := by
  induction k generalizing s with
  | zero => rfl
  | succ k ih =>
    rw [Function.iterate_succ_apply, Function.iterate_succ_apply, ih (loopBody s)]
    rfl

/-- For `2 ≤ n < maxInt` the function returns after `n` tests of the loop
    condition, having made `n - 1` passes. -/
theorem FibonacciIterative_eq_iterate (n : Int) (h2 : 2 ≤ n) (hn : n < maxInt)
    (fuel : Nat) (hf : n ≤ fuel) :
    FibonacciIterative fuel n =
      some (loopBody^[(n - 1).toNat] { i := 2, a := 0, b := 1 }).b := by
  rw [FibonacciIterative, if_neg (by omega)]
  apply runLoop_eq_iterate n hn
  · show (2 : Int) + ((n - 1).toNat : Int) = n + 1
    omega
  · decide
  · omega

/-- For an index `2 ≤ k < maxInt` the loop returns the mathematical Fibonacci
    number reduced into the signed 64-bit range. -/
theorem FibonacciIterative_eq_wrap (k : Nat) (hk : (k : Int) < maxInt)
    (fuel : Nat) (hf : k ≤ fuel) :
    FibonacciIterative fuel (k : Int) = some (wrapInt (mathFib k)) := by
  by_cases h2 : 2 ≤ k
  · rw [FibonacciIterative_eq_iterate k (by omega) hk fuel (by omega)]
    obtain ⟨j, rfl⟩ : ∃ j, k = j + 1 := ⟨k - 1, by omega⟩
    have : (((j + 1 : Nat) : Int) - 1).toNat = j := by push_cast; omega
    rw [this, loopBody_iterate]
  · rw [FibonacciIterative, if_pos (by omega)]
    have : k = 0 ∨ k = 1 := by omega
    rcases this with rfl | rfl <;> decide

/-- With the bound `maxInt` the loop condition `i <= n` holds for every value
    the counter can take, so no amount of fuel lets the loop exit. -/
theorem runLoop_maxInt_none (fuel : Nat) :
    ∀ s : LoopState, s.i ≤ maxInt → runLoop maxInt fuel s = none := by
  induction fuel with
  | zero => intro s _; rfl
  | succ f ih =>
    intro s hs
    rw [runLoop_step hs]
    apply ih
    exact (isInt_wrapInt _).2

theorem FibonacciIterative_maxInt_none (fuel : Nat) :
    FibonacciIterative fuel maxInt = none := by
  rw [FibonacciIterative, if_neg (by decide)]
  exact runLoop_maxInt_none fuel _ (by decide)

/-! ## Exact values below the overflow threshold -/

theorem mathFib_le_of_le_92 {k : Nat} (hk : k ≤ 92) :
    (mathFib k : Int) ≤ 7540113804746346429 := by
  have h := mathFib_mono hk
  rw [mathFib_92] at h
  exact_mod_cast h

theorem isInt_mathFib_of_le_92 {k : Nat} (hk : k ≤ 92) : isInt (mathFib k : Int) := by
  have h := mathFib_le_of_le_92 hk
  unfold isInt minInt maxInt
  omega

theorem Fibonacci_eq_mathFib {k : Nat} (hk : k ≤ 92) :
    Fibonacci (k : Int) = (mathFib k : Int) := by
  rw [Fibonacci_eq_wrap k (by unfold maxInt; omega),
    wrapInt_of_isInt (isInt_mathFib_of_le_92 hk)]

theorem FibonacciIterative_eq_mathFib {k : Nat} (hk : k ≤ 92) (fuel : Nat) (hf : k ≤ fuel) :
    FibonacciIterative fuel (k : Int) = some (mathFib k : Int) := by
  rw [FibonacciIterative_eq_wrap k (by unfold maxInt; omega) fuel hf,
    wrapInt_of_isInt (isInt_mathFib_of_le_92 hk)]

theorem Fibonacci_10 : Fibonacci 10 = 55 := by
  have h := Fibonacci_eq_mathFib (show 10 ≤ 92 by decide)
  rw [mathFib_eq_fib] at h
  norm_num [Nat.fib_add_two] at h
  exact h

theorem FibonacciIterative_10 (fuel : Nat) (hf : 10 ≤ fuel) :
    FibonacciIterative fuel 10 = some 55 := by
  have h := FibonacciIterative_eq_mathFib (show 10 ≤ 92 by decide) fuel hf
  rw [mathFib_eq_fib] at h
  norm_num [Nat.fib_add_two] at h
  exact h

theorem Fibonacci_93 : Fibonacci 93 = -6246583658587674878 := by
  have h := Fibonacci_eq_wrap 93 (by decide)
  rw [mathFib_93] at h
  rw [show ((93 : Nat) : Int) = 93 from rfl] at h
  rw [h]
  decide

theorem Fibonacci_92 : Fibonacci 92 = 7540113804746346429 := by
  have h := Fibonacci_eq_mathFib (show 92 ≤ 92 by decide)
  rw [mathFib_92] at h
  exact_mod_cast h

theorem FibonacciIterative_93 (fuel : Nat) (hf : 93 ≤ fuel) :
    FibonacciIterative fuel 93 = some (-6246583658587674878) := by
  have h := FibonacciIterative_eq_wrap 93 (by decide) fuel hf
  rw [mathFib_93] at h
  rw [show ((93 : Nat) : Int) = 93 from rfl] at h
  rw [h]
  decide

theorem FibonacciIterative_92 (fuel : Nat) (hf : 92 ≤ fuel) :
    FibonacciIterative fuel 92 = some 7540113804746346429 := by
  have h := FibonacciIterative_eq_mathFib (show 92 ≤ 92 by decide) fuel hf
  rw [mathFib_92] at h
  exact_mod_cast h

/-- More fuel never changes a result the loop has already produced. -/
theorem runLoop_fuel_mono (n : Int) (v : Int) (f : Nat) :
    ∀ (s : LoopState) (g : Nat), f ≤ g → runLoop n f s = some v → runLoop n g s = some v := by
  induction f with
  | zero => intro s g _ h; cases h
  | succ f ih =>
    intro s g hg h
    obtain ⟨g, rfl⟩ : ∃ k, g = k + 1 := ⟨g - 1, by omega⟩
    by_cases hs : s.i ≤ n
    · rw [runLoop_step hs] at h ⊢
      exact ih _ g (by omega) h
    · rw [runLoop_exit hs] at h ⊢
      exact h

theorem FibonacciIterative_fuel_mono (n v : Int) (f g : Nat) (hfg : f ≤ g)
    (h : FibonacciIterative f n = some v) : FibonacciIterative g n = some v := by
  unfold FibonacciIterative at h ⊢
  by_cases hn : n ≤ 1
  · rw [if_pos hn] at h ⊢; exact h
  · rw [if_neg hn] at h ⊢; exact runLoop_fuel_mono n v f _ g hfg h

/-- Below `maxInt` the two functions agree: the loop returns, and returns what
    the recursion returns. -/
theorem FibonacciIterative_eq_Fibonacci (n : Int) (h0 : 0 ≤ n) (hn : n < maxInt)
    (fuel : Nat) (hf : n ≤ fuel) :
    FibonacciIterative fuel n = some (Fibonacci n) := by
  obtain ⟨k, rfl⟩ : ∃ k : Nat, n = k := ⟨n.toNat, by omega⟩
  rw [FibonacciIterative_eq_wrap k hn fuel (by omega), Fibonacci_eq_wrap k (by omega)]

/-- Below `maxInt` the loop meets the iterative contract: for `n ≥ 2` it
    returns the second component of `pairStep` applied `n - 1` times to
    `(0, 1)`. -/
theorem FibonacciIterative_eq_pairStep (n : Int) (h2 : 2 ≤ n) (hn : n < maxInt)
    (fuel : Nat) (hf : n ≤ fuel) :
    FibonacciIterative fuel n = some (pairStep^[(n - 1).toNat] (0, 1)).2 := by
  rw [FibonacciIterative_eq_iterate n h2 hn fuel hf]
  have h := loopBody_iterate_pair (n - 1).toNat { i := 2, a := 0, b := 1 }
  rw [← h]

/-! ## Congruence with the mathematical sequence -/

theorem wrapInt_emod (x : Int) :
    wrapInt x % 18446744073709551616 = x % 18446744073709551616 := by
  unfold wrapInt
  omega

/-- On every non-negative Go `int` the recursion returns a Go `int` congruent
    modulo `2 ^ 64` to the mathematical Fibonacci number. -/
theorem Fibonacci_congruent (k : Nat) (hk : (k : Int) ≤ maxInt) :
    isInt (Fibonacci (k : Int)) ∧
      Fibonacci (k : Int) % 18446744073709551616 =
        (mathFib k : Int) % 18446744073709551616 := by
  rw [Fibonacci_eq_wrap k hk]
  exact ⟨isInt_wrapInt _, wrapInt_emod _⟩

/-- Below `maxInt` the loop returns a Go `int` congruent modulo `2 ^ 64` to the
    mathematical Fibonacci number, the same value the recursion returns. -/
theorem FibonacciIterative_congruent (k : Nat) (hk : (k : Int) < maxInt)
    (fuel : Nat) (hf : k ≤ fuel) :
    ∃ v : Int, FibonacciIterative fuel (k : Int) = some v ∧ isInt v ∧
      v % 18446744073709551616 = (mathFib k : Int) % 18446744073709551616 ∧
      v = Fibonacci (k : Int) := by
  refine ⟨wrapInt (mathFib k), FibonacciIterative_eq_wrap k hk fuel hf, isInt_wrapInt _,
    wrapInt_emod _, ?_⟩
  rw [Fibonacci_eq_wrap k (by omega)]

/-! ## Termination -/

/-- A recursive call of `Fibonacci` is made only on the branch `n ≥ 2`, and
    its argument (`n-1` or `n-2`, computed in Go arithmetic) is strictly below
    `n`; on a Go `int` it is exactly `n - 1`, respectively `n - 2`. -/
theorem Fibonacci_calls_decrease (n : Int) (h2 : 2 ≤ n) :
    intSub n 1 < n ∧ intSub n 2 < n ∧
      (n ≤ maxInt → intSub n 1 = n - 1 ∧ intSub n 2 = n - 2) := by
  refine ⟨?_, ?_, fun hn => ⟨intSub_of_ge (by omega) (by omega) hn,
    intSub_of_ge (by omega) (by omega) hn⟩⟩ <;>
  · unfold intSub wrapInt
    omega

/-- The loop counter after `k` passes is `k + 2` as long as that is a Go `int`. -/
theorem loopBody_iterate_i (k : Nat) (hk : (k : Int) + 2 ≤ maxInt) :
    (loopBody^[k] { i := 2, a := 0, b := 1 }).i = (k : Int) + 2 := by
  rw [loopBody_iterate]
  exact wrapInt_of_isInt (by unfold maxInt at hk; unfold isInt minInt maxInt; omega)

/-- Whatever the number of passes, the loop counter is a Go `int`. -/
theorem loopBody_iterate_i_le (k : Nat) :
    (loopBody^[k] { i := 2, a := 0, b := 1 }).i ≤ maxInt := by
  rw [loopBody_iterate]
  exact (isInt_wrapInt _).2

/-- For `2 ≤ n < maxInt` the loop makes exactly `n - 1` passes: the condition
    `i <= n` holds before each of the passes `0, ..., n - 2` and fails after
    pass `n - 2`, where the counter is `n + 1`. -/
theorem loop_passes_below_maxInt (n : Int) (h2 : 2 ≤ n) (hn : n < maxInt) :
    (∀ j : Nat, (j : Int) < n - 1 → (loopBody^[j] { i := 2, a := 0, b := 1 }).i ≤ n) ∧
      (loopBody^[(n - 1).toNat] { i := 2, a := 0, b := 1 }).i = n + 1 ∧
      ¬ (loopBody^[(n - 1).toNat] { i := 2, a := 0, b := 1 }).i ≤ n := by
  have hlast : (loopBody^[(n - 1).toNat] { i := 2, a := 0, b := 1 }).i = n + 1 := by
    rw [loopBody_iterate_i _ (by omega)]
    omega
  refine ⟨?_, hlast, by rw [hlast]; omega⟩
  intro j hj
  rw [loopBody_iterate_i j (by omega)]
  omega

/-! ## The loop invariant -/

/-- For `2 ≤ n < maxInt`, at the test of the loop condition that follows `k`
    passes (`k ≤ n - 1`) the counter is `i = k + 2`, so `2 ≤ i ≤ n + 1`, and the
    accumulator pair is `(Fibonacci (i - 2), Fibonacci (i - 1))`. -/
theorem loop_invariant_below_maxInt (n : Int) (hn : n < maxInt) (k : Nat)
    (hk : (k : Int) ≤ n - 1) :
    (loopBody^[k] { i := 2, a := 0, b := 1 }).i = (k : Int) + 2 ∧
      (loopBody^[k] { i := 2, a := 0, b := 1 }).a =
        Fibonacci ((loopBody^[k] { i := 2, a := 0, b := 1 }).i - 2) ∧
      (loopBody^[k] { i := 2, a := 0, b := 1 }).b =
        Fibonacci ((loopBody^[k] { i := 2, a := 0, b := 1 }).i - 1) := by
  have hi := loopBody_iterate_i k (by omega)
  have h2 : (k : Int) + 2 - 2 = (k : Int) := by ring
  have h1 : (k : Int) + 2 - 1 = ((k + 1 : Nat) : Int) := by push_cast; ring
  refine ⟨hi, ?_, ?_⟩
  · rw [hi, h2, Fibonacci_eq_wrap k (by omega), loopBody_iterate]
  · rw [hi, h1, Fibonacci_eq_wrap (k + 1) (by push_cast; omega), loopBody_iterate]

/-- For `2 ≤ n < maxInt` the loop exits at the test with counter `n + 1`, where
    the invariant gives `b = Fibonacci n`, the value returned. -/
theorem loop_exit_below_maxInt (n : Int) (h2 : 2 ≤ n) (hn : n < maxInt)
    (fuel : Nat) (hf : n ≤ fuel) :
    (loopBody^[(n - 1).toNat] { i := 2, a := 0, b := 1 }).i = n + 1 ∧
      (loopBody^[(n - 1).toNat] { i := 2, a := 0, b := 1 }).b = Fibonacci n ∧
      FibonacciIterative fuel n =
        some (loopBody^[(n - 1).toNat] { i := 2, a := 0, b := 1 }).b := by
  obtain ⟨hi, _, hb⟩ := loop_invariant_below_maxInt n hn (n - 1).toNat (by omega)
  have hi2 : (loopBody^[(n - 1).toNat] { i := 2, a := 0, b := 1 }).i = n + 1 := by
    rw [hi]; omega
  refine ⟨hi2, ?_, FibonacciIterative_eq_iterate n h2 hn fuel hf⟩
  rw [hb, hi2]
  congr 1
  ring

/-- The mathematical Fibonacci number of index `n` is even exactly when `n` is
    a multiple of three. -/
theorem mathFib_mod_two (n : Nat) : mathFib n % 2 = if n % 3 = 0 then 0 else 1 := by
  induction n using Nat.strong_induction_on with
  | _ n ih =>
    match n with
    | 0 => rfl
    | 1 => rfl
    | k + 2 =>
      have h0 := ih k (by omega)
      have h1 := ih (k + 1) (by omega)
      rw [mathFib]
      split_ifs at h0 h1 ⊢ <;> omega

theorem wrapInt_emod_two (x : Int) : wrapInt x % 2 = x % 2 := by
  unfold wrapInt
  omega

/-! ## The claims -/

/-- C1, evaluated at the index `n = maxInt = 9223372036854775807`, which is a
    non-negative Go `int`: the recursion has a value there, but the loop of
    `FibonacciIterative` never exits (its counter wraps from `maxInt` to
    `minInt`, so `i <= n` stays true), hence with no amount of fuel does
    `FibonacciIterative` return the value of `Fibonacci`, or any value. -/
theorem C1_iterative_never_returns_at_maxInt :
    isInt maxInt ∧ 0 ≤ maxInt ∧
      (∀ fuel : Nat, FibonacciIterative fuel maxInt = none) ∧
      (∀ fuel : Nat, FibonacciIterative fuel maxInt ≠ some (Fibonacci maxInt)) := by
  refine ⟨by decide, by decide, FibonacciIterative_maxInt_none, ?_⟩
  intro fuel
  rw [FibonacciIterative_maxInt_none]
  exact fun h => Option.noConfusion h

/-- C2: for every Go `int` value `n`, `Fibonacci n = n` when `n ≤ 1`, and
    `Fibonacci n` is the Go sum of `Fibonacci (n - 1)` and `Fibonacci (n - 2)`
    when `n ≥ 2`. -/
theorem C2_Fibonacci_contract (n : Int) (hn : isInt n) :
    (n ≤ 1 → Fibonacci n = n) ∧
      (2 ≤ n → Fibonacci n = intAdd (Fibonacci (n - 1)) (Fibonacci (n - 2))) :=
  ⟨fun h => Fibonacci_of_le h, fun h => Fibonacci_of_ge h hn.2⟩

/-- Instances of C2 at `n = 7` (recursive branch) and `n = 1` (base branch). -/
theorem C2_Fibonacci_contract_witness :
    (isInt 7 ∧ (2 : Int) ≤ 7 ∧
      Fibonacci 7 = intAdd (Fibonacci (7 - 1)) (Fibonacci (7 - 2))) ∧
    (isInt 1 ∧ (1 : Int) ≤ 1 ∧ Fibonacci 1 = 1) :=
  ⟨⟨by decide, by decide, (C2_Fibonacci_contract 7 (by decide)).2 (by decide)⟩,
    ⟨by decide, by decide, (C2_Fibonacci_contract 1 (by decide)).1 (by decide)⟩⟩

/-- C3, evaluated at the index `n = maxInt ≥ 2`: whatever the fuel,
    `FibonacciIterative` does not return the second component of the pair
    obtained from `(0, 1)` by `n - 1` applications of the step, because it
    does not return at all. -/
theorem C3_iterative_contract_fails_at_maxInt :
    isInt maxInt ∧ 2 ≤ maxInt ∧
      ∀ fuel : Nat,
        FibonacciIterative fuel maxInt ≠ some (pairStep^[(maxInt - 1).toNat] (0, 1)).2 := by
  refine ⟨by decide, by decide, ?_⟩
  intro fuel
  rw [FibonacciIterative_maxInt_none]
  exact fun h => Option.noConfusion h

/-- C4 fails at `n = 92`: both functions return `7540113804746346429` at 92
    and the wrapped, negative value `-6246583658587674878` at 93, so
    `f(93) ≥ f(92)` is false for each of them. -/
theorem C4_monotonicity_fails_at_92 :
    ¬ (Fibonacci (92 + 1) ≥ Fibonacci 92) ∧
      FibonacciIterative 93 92 = some 7540113804746346429 ∧
      FibonacciIterative 93 (92 + 1) = some (-6246583658587674878) ∧
      ¬ ((-6246583658587674878 : Int) ≥ 7540113804746346429) := by
  refine ⟨?_, FibonacciIterative_92 93 (by decide), FibonacciIterative_93 93 (le_refl _),
    by decide⟩
  rw [show (92 : Int) + 1 = 93 from rfl, Fibonacci_93, Fibonacci_92]
  decide

/-- C4 as amended: for every `0 ≤ n ≤ 91`, `Fibonacci (n + 1) ≥ Fibonacci n`,
    and `FibonacciIterative` returns at `n` and at `n + 1` values `v` and `w`
    with `w ≥ v`. -/
theorem C4_monotone_up_to_92 (n : Int) (h0 : 0 ≤ n) (h91 : n ≤ 91) :
    Fibonacci (n + 1) ≥ Fibonacci n ∧
      ∃ v w : Int,
        (∀ fuel : Nat, n + 1 ≤ fuel →
          FibonacciIterative fuel n = some v ∧ FibonacciIterative fuel (n + 1) = some w) ∧
        w ≥ v := by
  obtain ⟨k, rfl⟩ : ∃ k : Nat, n = k := ⟨n.toNat, by omega⟩
  have hk : k ≤ 92 := by omega
  have hk1 : k + 1 ≤ 92 := by omega
  have hc : ((k : Int) + 1) = ((k + 1 : Nat) : Int) := by push_cast; rfl
  have hm : (mathFib k : Int) ≤ (mathFib (k + 1) : Int) := by
    exact_mod_cast mathFib_mono (Nat.le_succ k)
  rw [hc, Fibonacci_eq_mathFib hk, Fibonacci_eq_mathFib hk1]
  refine ⟨hm, mathFib k, mathFib (k + 1), ?_, hm⟩
  intro fuel hf
  exact ⟨FibonacciIterative_eq_mathFib hk fuel (by omega),
    FibonacciIterative_eq_mathFib hk1 fuel (by omega)⟩

/-- Instance of the amended C4 at `n = 91`, the last index it covers. -/
theorem C4_monotone_up_to_92_witness :
    (0 : Int) ≤ 91 ∧ (91 : Int) ≤ 91 ∧
      (Fibonacci (91 + 1) ≥ Fibonacci 91 ∧
        ∃ v w : Int,
          (∀ fuel : Nat, (91 : Int) + 1 ≤ fuel →
            FibonacciIterative fuel 91 = some v ∧ FibonacciIterative fuel (91 + 1) = some w) ∧
          w ≥ v) :=
  ⟨by decide, by decide, C4_monotone_up_to_92 91 (by decide) (by decide)⟩

/-- C5 fails at `n = 93`: both functions return the negative value
    `-6246583658587674878`. -/
theorem C5_negative_value_at_93 :
    (0 : Int) ≤ 93 ∧ ¬ (0 ≤ Fibonacci 93) ∧
      FibonacciIterative 93 93 = some (-6246583658587674878) ∧
      ¬ ((0 : Int) ≤ -6246583658587674878) := by
  refine ⟨by decide, ?_, FibonacciIterative_93 93 (le_refl _), by decide⟩
  rw [Fibonacci_93]
  decide

/-- C5 as amended: for every index `0 ≤ n ≤ 92`, `Fibonacci n` is non-negative
    and `FibonacciIterative` returns a non-negative value. -/
theorem C5_nonneg_up_to_92 (n : Int) (h0 : 0 ≤ n) (h92 : n ≤ 92) :
    0 ≤ Fibonacci n ∧
      ∃ v : Int, (∀ fuel : Nat, n ≤ fuel → FibonacciIterative fuel n = some v) ∧ 0 ≤ v := by
  obtain ⟨k, rfl⟩ : ∃ k : Nat, n = k := ⟨n.toNat, by omega⟩
  have hk : k ≤ 92 := by omega
  rw [Fibonacci_eq_mathFib hk]
  refine ⟨Int.natCast_nonneg _, mathFib k, ?_, Int.natCast_nonneg _⟩
  intro fuel hf
  exact FibonacciIterative_eq_mathFib hk fuel (by omega)

/-- Instance of the amended C5 at `n = 92`, the last index it covers. -/
theorem C5_nonneg_up_to_92_witness :
    (0 : Int) ≤ 92 ∧ (92 : Int) ≤ 92 ∧
      (0 ≤ Fibonacci 92 ∧
        ∃ v : Int,
          (∀ fuel : Nat, (92 : Int) ≤ fuel → FibonacciIterative fuel 92 = some v) ∧ 0 ≤ v) :=
  ⟨by decide, by decide, C5_nonneg_up_to_92 92 (by decide) (by decide)⟩

/-- C6: `Fibonacci 10 = 55`, `Fibonacci 20 = 6765`, and `FibonacciIterative`
    returns `55` at 10 and `6765` at 20 (with fuel for 10, respectively 20,
    tests of the loop condition). -/
theorem C6_known_values :
    Fibonacci 10 = 55 ∧ Fibonacci 20 = 6765 ∧
      FibonacciIterative 10 10 = some 55 ∧ FibonacciIterative 20 20 = some 6765 := by
  refine ⟨Fibonacci_10, ?_, by decide, by decide⟩
  have h := Fibonacci_eq_mathFib (show 20 ≤ 92 by decide)
  rw [mathFib_eq_fib] at h
  norm_num [Nat.fib_add_two] at h
  exact h

/-- C7: `Fibonacci 0 = 0`, `Fibonacci 1 = 1`, and `FibonacciIterative` returns
    `0` at 0 and `1` at 1, whatever the fuel. -/
theorem C7_base_cases :
    Fibonacci 0 = 0 ∧ Fibonacci 1 = 1 ∧
      ∀ fuel : Nat, FibonacciIterative fuel 0 = some 0 ∧ FibonacciIterative fuel 1 = some 1 := by
  refine ⟨Fibonacci_of_le (by decide), Fibonacci_of_le (by decide), ?_⟩
  intro fuel
  constructor <;> rfl

/-- C8: given fuel for the ten tests of the loop condition, `main` writes
    exactly the two lines `Fibonacci(10) = 55 (recursive)` and
    `Fibonacci(10) = 55 (iterative)`, in that order, each ended by a newline. -/
theorem C8_main_output (fuel : Nat) (hf : 10 ≤ fuel) :
    main fuel =
      some "Fibonacci(10) = 55 (recursive)\nFibonacci(10) = 55 (iterative)\n" := by
  unfold main
  simp only [Fibonacci_10, FibonacciIterative_10 fuel hf]
  decide

/-- Instance of C8 with fuel for exactly the ten tests of the loop condition. -/
theorem C8_main_output_witness :
    10 ≤ 10 ∧
      main 10 = some "Fibonacci(10) = 55 (recursive)\nFibonacci(10) = 55 (iterative)\n" :=
  ⟨by decide, C8_main_output 10 (by decide)⟩

/-- C9: for every `n < 0`, `Fibonacci n = n` and `FibonacciIterative` returns
    `n`, whatever the fuel; neither has an error result, and the two agree. -/
theorem C9_negative_input (n : Int) (hn : n < 0) :
    Fibonacci n = n ∧ (∀ fuel : Nat, FibonacciIterative fuel n = some n) ∧
      ∀ fuel : Nat, FibonacciIterative fuel n = some (Fibonacci n) := by
  have hF : Fibonacci n = n := Fibonacci_of_le (by omega)
  have hI : ∀ fuel : Nat, FibonacciIterative fuel n = some n := by
    intro fuel
    rw [FibonacciIterative, if_pos (by omega)]
  refine ⟨hF, hI, ?_⟩
  intro fuel
  rw [hF, hI]

/-- Instance of C9 at `n = -5`. -/
theorem C9_negative_input_witness :
    (-5 : Int) < 0 ∧
      (Fibonacci (-5) = -5 ∧ (∀ fuel : Nat, FibonacciIterative fuel (-5) = some (-5)) ∧
        ∀ fuel : Nat, FibonacciIterative fuel (-5) = some (Fibonacci (-5))) :=
  ⟨by decide, C9_negative_input (-5) (by decide)⟩

/-- C10: for every index `n ≤ 92` both functions return exactly the
    mathematical Fibonacci number `mathFib n`, and no operation overflows on
    the way: in the recursion the operands `n - 1`, `n - 2` and the exact sum
    of the two recursive results are Go `int` values, and in every pass `k` of
    the loop (`k + 2 ≤ n`) the exact sum `a + b` and the exact successor
    `i + 1` are Go `int` values.  At `n = 93` both functions return a value
    different from `mathFib 93`, so 93 is the least index where they differ. -/
theorem C10_exact_up_to_92_and_not_at_93 :
    (∀ n : Nat, n ≤ 92 →
      Fibonacci (n : Int) = (mathFib n : Int) ∧
      (∀ fuel : Nat, n ≤ fuel → FibonacciIterative fuel (n : Int) = some (mathFib n : Int)) ∧
      (2 ≤ n → isInt ((n : Int) - 1) ∧ isInt ((n : Int) - 2) ∧
        isInt (Fibonacci ((n : Int) - 1) + Fibonacci ((n : Int) - 2))) ∧
      (∀ k : Nat, k + 2 ≤ n →
        isInt ((loopBody^[k] { i := 2, a := 0, b := 1 }).a +
          (loopBody^[k] { i := 2, a := 0, b := 1 }).b) ∧
        isInt ((loopBody^[k] { i := 2, a := 0, b := 1 }).i + 1))) ∧
    Fibonacci 93 ≠ (mathFib 93 : Int) ∧
    ∃ v : Int, (∀ fuel : Nat, 93 ≤ fuel → FibonacciIterative fuel 93 = some v) ∧
      v ≠ (mathFib 93 : Int) := by
  refine ⟨?_, ?_, -6246583658587674878, FibonacciIterative_93, ?_⟩
  · intro n hn
    refine ⟨Fibonacci_eq_mathFib hn, fun fuel hf => FibonacciIterative_eq_mathFib hn fuel hf,
      ?_, ?_⟩
    · intro h2
      obtain ⟨j, rfl⟩ : ∃ j, n = j + 2 := ⟨n - 2, by omega⟩
      have h1 : ((j + 2 : Nat) : Int) - 1 = ((j + 1 : Nat) : Int) := by push_cast; ring
      have h0 : ((j + 2 : Nat) : Int) - 2 = ((j : Nat) : Int) := by push_cast; ring
      have hs : (mathFib (j + 1) : Int) + (mathFib j : Int) = (mathFib (j + 2) : Int) := by
        rw [mathFib]; push_cast; ring
      rw [h1, h0, Fibonacci_eq_mathFib (by omega), Fibonacci_eq_mathFib (by omega), hs]
      refine ⟨?_, ?_, isInt_mathFib_of_le_92 hn⟩ <;>
        (unfold isInt minInt maxInt; omega)
    · intro k hk
      have hs : (mathFib k : Int) + (mathFib (k + 1) : Int) = (mathFib (k + 2) : Int) := by
        rw [mathFib]; push_cast; ring
      have hi : wrapInt ((k : Int) + 2) = (k : Int) + 2 :=
        wrapInt_of_isInt (by unfold isInt minInt maxInt; omega)
      rw [loopBody_iterate]
      simp only []
      rw [wrapInt_of_isInt (isInt_mathFib_of_le_92 (show k ≤ 92 by omega)),
        wrapInt_of_isInt (isInt_mathFib_of_le_92 (show k + 1 ≤ 92 by omega)), hs, hi]
      exact ⟨isInt_mathFib_of_le_92 (by omega), by unfold isInt minInt maxInt; omega⟩
  · rw [Fibonacci_93, mathFib_93]
    decide
  · rw [mathFib_93]
    decide

/-- Instance of C10 at `n = 92`, the last exact index. -/
theorem C10_exact_up_to_92_and_not_at_93_witness :
    92 ≤ 92 ∧ Fibonacci 92 = (mathFib 92 : Int) ∧
      FibonacciIterative 92 92 = some (mathFib 92 : Int) :=
  ⟨by decide, (C10_exact_up_to_92_and_not_at_93.1 92 (by decide)).1,
    (C10_exact_up_to_92_and_not_at_93.1 92 (by decide)).2.1 92 (by decide)⟩

/-- C11, evaluated at the index `n = maxInt = 9223372036854775807`: the value
    of `Fibonacci` is congruent modulo `2 ^ 64` to the mathematical Fibonacci
    number of that index, but `FibonacciIterative` returns no value at all
    there, congruent or not, because the wrap-around of its loop counter keeps
    the loop from exiting: overflow does make the two functions diverge. -/
theorem C11_congruence_fails_at_maxInt :
    isInt maxInt ∧ 0 ≤ maxInt ∧
      Fibonacci maxInt % 18446744073709551616 =
        (mathFib 9223372036854775807 : Int) % 18446744073709551616 ∧
      ∀ fuel : Nat, ¬ ∃ v : Int, FibonacciIterative fuel maxInt = some v ∧
        v % 18446744073709551616 =
          (mathFib 9223372036854775807 : Int) % 18446744073709551616 := by
  have hc : ((9223372036854775807 : Nat) : Int) = maxInt := rfl
  have h := (Fibonacci_congruent 9223372036854775807 (le_of_eq hc)).2
  rw [hc] at h
  refine ⟨by decide, by decide, h, ?_⟩
  rintro fuel ⟨v, hv, _⟩
  rw [FibonacciIterative_maxInt_none] at hv
  exact Option.noConfusion hv

/-- C12, evaluated at the argument `n = maxInt = 9223372036854775807`: after
    `max(n-1, 0) = 9223372036854775806` passes the loop counter has wrapped to
    `minInt`, the condition `i <= n` still holds, and it holds after any number
    of passes, so the loop does not exit and `FibonacciIterative` returns with
    no amount of fuel.  (The recursion of `Fibonacci` makes no call at all when
    `n ≤ 1` and is well-founded there as everywhere.) -/
theorem C12_loop_never_exits_at_maxInt :
    isInt maxInt ∧
      (loopBody^[9223372036854775806] { i := 2, a := 0, b := 1 }).i = minInt ∧
      (loopBody^[9223372036854775806] { i := 2, a := 0, b := 1 }).i ≤ maxInt ∧
      (∀ k : Nat, (loopBody^[k] { i := 2, a := 0, b := 1 }).i ≤ maxInt) ∧
      (∀ fuel : Nat, runLoop maxInt fuel { i := 2, a := 0, b := 1 } = none) ∧
      (∀ fuel : Nat, FibonacciIterative fuel maxInt = none) := by
  refine ⟨by decide, ?_, loopBody_iterate_i_le _, loopBody_iterate_i_le,
    fun fuel => runLoop_maxInt_none fuel _ (by decide), FibonacciIterative_maxInt_none⟩
  rw [loopBody_iterate]
  show wrapInt (((9223372036854775806 : Nat) : Int) + 2) = minInt
  decide

/-- C13, evaluated at the argument `n = maxInt = 9223372036854775807 ≥ 2`:
    every test of the loop condition succeeds, so the test that follows
    `2 ^ 64 = 18446744073709551616` passes takes place; the counter has then
    wrapped around to `i = 2`, which lies in `2 ≤ i ≤ n + 1`, while `a` is an
    odd number and not `Fibonacci (i - 2) = 0`.  Moreover the counter never
    takes the value `n + 1`, so there is no exit at which `b = Fibonacci n`
    could be read off. -/
theorem C13_invariant_fails_at_maxInt :
    isInt maxInt ∧ 2 ≤ maxInt ∧
      (∀ k : Nat, (loopBody^[k] { i := 2, a := 0, b := 1 }).i ≤ maxInt) ∧
      (loopBody^[18446744073709551616] { i := 2, a := 0, b := 1 }).i = 2 ∧
      (loopBody^[18446744073709551616] { i := 2, a := 0, b := 1 }).a % 2 = 1 ∧
      (loopBody^[18446744073709551616] { i := 2, a := 0, b := 1 }).a ≠
        Fibonacci ((loopBody^[18446744073709551616] { i := 2, a := 0, b := 1 }).i - 2) ∧
      (∀ k : Nat, (loopBody^[k] { i := 2, a := 0, b := 1 }).i ≠ maxInt + 1) := by
  have hi : (loopBody^[18446744073709551616] { i := 2, a := 0, b := 1 }).i = 2 := by
    rw [loopBody_iterate]
    show wrapInt (((18446744073709551616 : Nat) : Int) + 2) = 2
    decide
  have ha : (loopBody^[18446744073709551616] { i := 2, a := 0, b := 1 }).a % 2 = 1 := by
    rw [loopBody_iterate]
    show wrapInt ((mathFib 18446744073709551616 : Nat) : Int) % 2 = 1
    have hp := mathFib_mod_two 18446744073709551616
    rw [if_neg (by decide)] at hp
    rw [wrapInt_emod_two]
    omega
  refine ⟨by decide, by decide, loopBody_iterate_i_le, hi, ha, ?_, ?_⟩
  · intro heq
    rw [hi, show (2 : Int) - 2 = 0 from rfl, Fibonacci_of_le (by decide)] at heq
    rw [heq] at ha
    exact absurd ha (by decide)
  · intro k hk
    have hle := loopBody_iterate_i_le k
    rw [hk] at hle
    exact absurd hle (by decide)

end FibGo
